import Mathlib

/-
Verification of the coverage-aggregation core of the `import-lcov` editor
extension (src/extension.ts), against its natural-language specification.

The embedding below is a shallow translation of the TypeScript source:
  * parser sections become `LcovSection` records (hit counts are `Nat`,
    since LCOV hit counts are non-negative integers);
  * the `branchesByLine` JavaScript `Map<number, Record<string, BranchCoverage>>`
    becomes an insertion-ordered association list of association lists
    (JavaScript object key enumeration places integer-like keys in ascending
    numeric order before other keys; we model plain insertion order, and no
    property proved below depends on the ordering of entries within one
    line's group);
  * the async batch (`Promise.all` over per-file tasks) is modelled by
    running every task to completion independently and rejecting the joined
    promise when any task failed, which matches JavaScript semantics where
    each mapped async function keeps running after `Promise.all` has
    already rejected;
  * the demangler lazy-load protocol (the `demangle` variable that is
    either `undefined`, a promise, or a function) becomes an explicit
    state machine `DemangleCache` stepped by `fetchDemangle`.
All string positions use character counts; every concrete input below is
ASCII, where JavaScript's UTF-16 `length` and Lean's character count agree.
-/

namespace ImportLcov

/-! ## Data model (parser output, §3 of the spec) -/

/-- One entry of `section.lines.details`: a 1-based line and its hit count. -/
structure LineDetail where
  line : Nat
  hit : Nat
  deriving DecidableEq, Repr

/-- One entry of `section.branches.details`: 1-based line, branch identifier,
hit count. -/
structure BranchDetail where
  line : Nat
  branch : String
  hit : Nat
  deriving DecidableEq, Repr

/-- One entry of `section.functions.details`: function name (possibly empty or
mangled), 1-based line, hit count. -/
structure FunctionDetail where
  name : String
  line : Nat
  hit : Nat
  deriving DecidableEq, Repr

/-- A summary block of the parser's section: instrumented count, hit count and
the ordered detail records. -/
structure DetailBlock (α : Type) where
  instrumented : Nat
  hit : Nat
  details : List α
  deriving DecidableEq, Repr

/-- One per-source-file section of an LCOV report as produced by the parser. -/
structure LcovSection where
  path : String
  lines : DetailBlock LineDetail
  branches : DetailBlock BranchDetail
  functions : DetailBlock FunctionDetail
  deriving DecidableEq, Repr

/-! ## Path resolver (extension.ts lines 59-77)

The source iterates `vscode.workspace.workspaceFolders` in order and takes the
first folder whose `fsPath` satisfies `section.path.startsWith(workspacePath)`;
the resolved identity is `joinPath(folder.uri, section.path.substring(len+1))`.
If no folder matches, the identity is `vscode.Uri.file(section.path)`. -/

/-- JavaScript `s.length`. Character count; on the ASCII inputs used below it
agrees with JavaScript's UTF-16 unit count. (Defined over `String.data` so
that concrete instances reduce inside the kernel.) -/
def strLen (s : String) : Nat :=
  s.data.length

/-- JavaScript `s.substring(n)`: the characters of `s` from index `n` on. -/
def strDrop (s : String) (n : Nat) : String :=
  ⟨s.data.drop n⟩

/-- JavaScript `s.startsWith(p)`. -/
def strStartsWith (s p : String) : Bool :=
  p.data.isPrefixOf s.data

/-- A resolved file identity: either a workspace root joined with a relative
remainder (`vscode.Uri.joinPath`), or a raw standalone path
(`vscode.Uri.file`). -/
inductive PathIdentity where
  | joined (root rest : String)
  | raw (p : String)
  deriving DecidableEq, Repr

/-- The `for (const workspaceFolder of ...)` loop with its `break`: the first
root `r` with `p.startsWith r` wins and yields the pair
`(r, p.substring (r.length + 1))`. -/
def resolveLoop (p : String) : List String → Option (String × String)
  | [] => none
  | r :: rs =>
    if strStartsWith p r then some (r, strDrop p (strLen r + 1))
    else resolveLoop p rs

/-- Resolution of a section path against the ordered workspace roots,
including the `path ?? vscode.Uri.file(section.path)` fallback. -/
def resolvePath (roots : List String) (p : String) : PathIdentity :=
  match resolveLoop p roots with
  | some (r, rest) => .joined r rest
  | none => .raw p

/-- The resolver as the SPEC words it (for comparison with `resolvePath`):
the first root wins only when the prefix match falls on a full path segment,
i.e. the root is followed immediately by a path separator in the section
path. -/
def resolveLoopSpec (p : String) : List String → Option (String × String)
  | [] => none
  | r :: rs =>
    if strStartsWith p (r ++ "/") then some (r, strDrop p (strLen r + 1))
    else resolveLoopSpec p rs

/-- Spec-worded resolution: segment-boundary prefix match, with the same
raw-path fallback. -/
def resolvePathSpec (roots : List String) (p : String) : PathIdentity :=
  match resolveLoopSpec p roots with
  | some (r, rest) => .joined r rest
  | none => .raw p

/-! ## Coverage summaries (extension.ts lines 76-93) -/

/-- `vscode.TestCoverageCount(covered, total)`. -/
structure TestCoverageCount where
  covered : Nat
  total : Nat
  deriving DecidableEq, Repr

/-- `vscode.FileCoverage` as constructed by `collectRunData`: the resolved
identity plus the three statement/branch/declaration count pairs. -/
structure FileCoverage where
  uri : PathIdentity
  statement : TestCoverageCount
  branch : TestCoverageCount
  declaration : TestCoverageCount
  deriving DecidableEq, Repr

/-- The `new vscode.FileCoverage(...)` expression of `collectRunData`:
a pure projection of the section's three summary pairs, with the resolved
path identity. -/
def mkFileCoverage (roots : List String) (s : LcovSection) : FileCoverage :=
  { uri := resolvePath roots s.path
    statement := ⟨s.lines.hit, s.lines.instrumented⟩
    branch := ⟨s.branches.hit, s.branches.instrumented⟩
    declaration := ⟨s.functions.hit, s.functions.instrumented⟩ }

/-- Replace all three detail lists of a section, keeping its summary fields. -/
def withDetails (s : LcovSection) (lds : List LineDetail)
    (bds : List BranchDetail) (fds : List FunctionDetail) : LcovSection :=
  { s with
    lines := { s.lines with details := lds }
    branches := { s.branches with details := bds }
    functions := { s.functions with details := fds } }

/-! ## Batch runner (extension.ts lines 45-98)

`collectRunData` maps an async task over the report files and awaits
`Promise.all`. A task reads and parses its file and publishes one
`FileCoverage` per section via `run.addCoverage`. There is no per-task
`catch`: when a parse rejects, `Promise.all` rejects, the `await` throws and
`run.end()` on line 97 is never reached — but the other tasks keep running
and still publish their coverages. Cancellation is modelled as never
requested (no claim concerns it). -/

/-- Outcome of reading and parsing one report file. -/
inductive ParseResult where
  | ok (sections : List LcovSection)
  | fail
  deriving Repr

/-- One per-file async task: a failed parse publishes nothing and rejects;
a successful parse publishes one coverage per section and resolves. The pair
is (coverages published by this task, did the task resolve). -/
def runTask (roots : List String) : ParseResult → List FileCoverage × Bool
  | .fail => ([], false)
  | .ok sections => (sections.map (mkFileCoverage roots), true)

/-- The `await Promise.all` join: every task's publishes take effect; the
joined promise resolves only when every task resolved. -/
def promiseAll (tasks : List (List FileCoverage × Bool)) :
    List FileCoverage × Bool :=
  (tasks.foldl (fun acc t => acc ++ t.1) [], tasks.all (·.2))

/-- `collectRunData` over a batch of parsed report files: the published
coverages, whether `run.end()` was reached, and whether the batch promise
rejected. -/
def collectRunData (roots : List String) (files : List ParseResult) :
    List FileCoverage × Bool × Bool :=
  let joined := promiseAll (files.map (runTask roots))
  (joined.1, joined.2, !joined.2)

/-! ## Branch merging (extension.ts lines 124-140)

`branchesByLine` is a `Map<number, Record<string, vscode.BranchCoverage>>`.
For each raw branch detail the source looks up (or creates) the line's record,
creates the identifier's entry with `??=` at `executed = 0` if absent, then
adds the detail's hit count to `executed`, and stores the record back under
the line key. -/

/-- `vscode.BranchCoverage(executed, position, label)`; the position's
character component is always 0 in the source, so only its line is kept
(already 0-based: the source passes `branch.line - 1`). -/
structure BranchCoverage where
  executed : Nat
  line : Nat
  label : String
  deriving DecidableEq, Repr

/-- A JavaScript `Record<string, BranchCoverage>` keyed by branch identifier,
as an insertion-ordered association list. -/
abbrev BranchRec := List (String × BranchCoverage)

/-- One iteration of the branch loop's work on a line's record:
`branches[b.branch] ??= new BranchCoverage(0, pos(b.line - 1, 0), b.branch)`
followed by `branches[b.branch].executed += b.hit`. An absent identifier is
appended with `executed = 0 + b.hit`. -/
def bump : BranchRec → BranchDetail → BranchRec
  | [], b => [(b.branch, ⟨0 + b.hit, b.line - 1, b.branch⟩)]
  | (k, bc) :: r, b =>
    if k == b.branch then (k, { bc with executed := bc.executed + b.hit }) :: r
    else (k, bc) :: bump r b

/-- Lookup in a `Record<string, BranchCoverage>` (first matching key). -/
def recGet : BranchRec → String → Option BranchCoverage
  | [], _ => none
  | (k, bc) :: r, id => if k == id then some bc else recGet r id

/-- The `branchesByLine` JavaScript `Map`, insertion-ordered by line key. -/
abbrev BranchMap := List (Nat × BranchRec)

/-- `branchesByLine.get(l)`. -/
def mapGet : BranchMap → Nat → Option BranchRec
  | [], _ => none
  | (k, v) :: m, l => if k == l then some v else mapGet m l

/-- `branchesByLine.set(l, v)`: replace an existing key in place, otherwise
append. -/
def mapSet : BranchMap → Nat → BranchRec → BranchMap
  | [], l, v => [(l, v)]
  | (k, w) :: m, l, v =>
    if k == l then (k, v) :: m else (k, w) :: mapSet m l v

/-- The body of the `for (const branch of section.branches.details)` loop:
`const branches = branchesByLine.get(branch.line) ?? {}` then the `bump`
mutation then `branchesByLine.set(branch.line, branches)`. -/
def branchStep (m : BranchMap) (b : BranchDetail) : BranchMap :=
  mapSet m b.line (bump ((mapGet m b.line).getD []) b)

/-- The whole `for (const branch of section.branches.details)` loop. -/
def mergeBranches (ds : List BranchDetail) : BranchMap :=
  ds.foldl branchStep []

/-- The merged branch group attached to line `l`:
`branchesByLine.get(l) ?? {}`. -/
def branchGroup (ds : List BranchDetail) (l : Nat) : BranchRec :=
  (mapGet (mergeBranches ds) l).getD []

/-! ## Detail expansion (extension.ts lines 116-180) -/

/-- `vscode.StatementCoverage(executed, position, branches)`; the position's
character component is always 0, so only its (0-based) line is kept. -/
structure StatementCoverage where
  executed : Nat
  line : Nat
  branches : List BranchCoverage
  deriving DecidableEq, Repr

/-- `vscode.DeclarationCoverage(name, executed, position)`, position kept as
its 0-based line. -/
structure DeclarationCoverage where
  name : String
  executed : Nat
  line : Nat
  deriving DecidableEq, Repr

/-- `vscode.FileCoverageDetail = StatementCoverage | DeclarationCoverage`. -/
inductive FileCoverageDetail where
  | statement (s : StatementCoverage)
  | declaration (d : DeclarationCoverage)
  deriving DecidableEq, Repr

/-- The regular expression test of line 159, `/^_{1,3}Z/.test(name)`: one to
three leading underscores followed by `Z`. With backtracking this matches
exactly when the name starts with `_Z`, `__Z` or `___Z`. -/
def isMangled (s : String) : Bool :=
  strStartsWith s "_Z" || strStartsWith s "__Z" || strStartsWith s "___Z"

/-- The body of `loadDetailedCoverage` for a present section, instrumented
with a log of the names passed to the demangler: first the branch-merge loop,
then the line loop pushing `StatementCoverage` records
(`Object.values(branchesByLine.get(line.line) ?? {})` with the group's values
in record order), then the function loop that skips empty names and
demangles names matching the mangled pattern (one demangler call per such
record). `dem` is the session's resolved demangle function. Returns the
pushed `details` array and the demangler call log in call order.
`lineStep` is the body of the `for (const line of section.lines.details)`
loop: push a `StatementCoverage` carrying `Object.values` of
`branchesByLine.get(line.line)`, defaulting to the empty record. -/
def lineStep (bbl : BranchMap) (acc : List FileCoverageDetail)
    (ln : LineDetail) : List FileCoverageDetail :=
  acc ++ [.statement
    ⟨ln.hit, ln.line - 1, ((mapGet bbl ln.line).getD []).map Prod.snd⟩]

/-- The body of the `for (const fn of section.functions.details)` loop, with
the demangler-call log threaded through. -/
def fnStep (dem : String → String) (acc : List FileCoverageDetail × List String)
    (fn : FunctionDetail) : List FileCoverageDetail × List String :=
  if strLen fn.name == 0 then acc
  else if isMangled fn.name then
    (acc.1 ++ [.declaration ⟨dem fn.name, fn.hit, fn.line - 1⟩],
     acc.2 ++ [fn.name])
  else
    (acc.1 ++ [.declaration ⟨fn.name, fn.hit, fn.line - 1⟩], acc.2)

def expandDetailsLog (dem : String → String) (s : LcovSection) :
    List FileCoverageDetail × List String :=
  let bbl := mergeBranches s.branches.details
  s.functions.details.foldl (fnStep dem)
    (s.lines.details.foldl (lineStep bbl) [], [])

/-- The detail records returned by `loadDetailedCoverage` for a section. -/
def expandDetails (dem : String → String) (s : LcovSection) :
    List FileCoverageDetail :=
  (expandDetailsLog dem s).1

/-- The names passed to the demangler while expanding a section, in order. -/
def demangleLog (dem : String → String) (s : LcovSection) : List String :=
  (expandDetailsLog dem s).2

/-- `loadDetailedCoverage` itself: the section is fetched from the
`testRunData` weak map; an absent section yields `[]`. -/
def loadDetailedCoverage (dem : String → String) :
    Option LcovSection → List FileCoverageDetail
  | none => []
  | some s => expandDetails dem s

/-- Projection selecting the Line records of a detail list. -/
def stmtOf : FileCoverageDetail → Option StatementCoverage
  | .statement s => some s
  | .declaration _ => none

/-- Projection selecting the Declaration records of a detail list. -/
def declOf : FileCoverageDetail → Option DeclarationCoverage
  | .statement _ => none
  | .declaration d => some d

/-! ## Demangler lazy load (extension.ts lines 111-167)

The profile-scoped variable `demangle` is `undefined`, or a promise, or the
loaded function. On a mangled name: if `undefined`, the load starts and its
promise is assigned BEFORE any await (no suspension between the check and the
assignment, so concurrent callers interleave only at the awaits); then the
promise is awaited, and on success the resolved function is assigned. A
rejected load throws out of the `await`, skipping the assignment, so the
variable keeps holding the settled (rejected) promise. Awaiting a settled
promise always re-yields the same outcome, so any interleaving of callers
behaves as some sequential order of these atomic steps; `runSession` models
`k` such caller steps in sequence. `loader n` is the outcome `loadDemangle`
would produce on its (n+1)-th execution; the load counter records how many
times `loadDemangle` actually ran. -/

/-- The demangle function type. -/
abbrev Demangler := String → String

/-- The three states of the `demangle` variable: `undefined`, a settled
promise carrying its outcome, or the cached loaded function. -/
inductive DemangleCache where
  | undef
  | pending (r : Except Unit Demangler)
  | loaded (f : Demangler)

/-- One caller's pass through lines 159-167 with a mangled name:
(cache, load count) before, ((cache, load count) after, observed outcome). -/
def fetchDemangle (loader : Nat → Except Unit Demangler) :
    DemangleCache × Nat → (DemangleCache × Nat) × Except Unit Demangler
  | (.undef, n) =>
    match loader n with
    | .ok f => ((.loaded f, n + 1), .ok f)
    | .error e => ((.pending (.error e), n + 1), .error e)
  | (.pending (.ok f), n) => ((.loaded f, n), .ok f)
  | (.pending (.error e), n) => ((.pending (.error e), n), .error e)
  | (.loaded f, n) => ((.loaded f, n), .ok f)

/-- A run session in which `k` demangle-triggering callers execute, starting
from the fresh `demangle = undefined` of `createCoverageProfile`. Yields the
final (cache, load count) and the outcome each caller observed. -/
def runSession (loader : Nat → Except Unit Demangler) :
    Nat → (DemangleCache × Nat) × List (Except Unit Demangler)
  | 0 => ((.undef, 0), [])
  | k + 1 =>
    let prev := runSession loader k
    let step := fetchDemangle loader prev.1
    (step.1, prev.2 ++ [step.2])

/-- How many times `loadDemangle` executed during a session of `k` callers. -/
def sessionLoads (loader : Nat → Except Unit Demangler) (k : Nat) : Nat :=
  (runSession loader k).1.2

/-- The outcomes the `k` callers of a session observed, in order. -/
def sessionResults (loader : Nat → Except Unit Demangler) (k : Nat) :
    List (Except Unit Demangler) :=
  (runSession loader k).2

/-- A loader whose first execution fails and whose later executions would
succeed: distinguishes a retrying cache from one that latches the failure. -/
def retryLoader : Nat → Except Unit Demangler
  | 0 => .error ()
  | _ + 1 => .ok (fun s => s)

/-! ## Characterization helpers

Named forms used by the theorem statements below to describe the observable
behaviour of the definitions above. -/

/-- The retention condition of the function loop: the record is kept exactly
when the name is non-empty. -/
def fnKeep (fn : FunctionDetail) : Bool :=
  !(strLen fn.name == 0)

/-- The declaration record the function loop emits for a retained entry. -/
def fnDecl (dem : String → String) (fn : FunctionDetail) : DeclarationCoverage :=
  ⟨if isMangled fn.name then dem fn.name else fn.name, fn.hit, fn.line - 1⟩

/-- Sum of the hit counts of the branch details carrying identifier `id`. -/
def hitsFor (bs : List BranchDetail) (id : String) : Nat :=
  ((bs.filter (fun b => b.branch == id)).map (·.hit)).sum

/-- The identifier keys of a line's branch record, in record order. -/
def recKeys (r : BranchRec) : List String :=
  r.map Prod.fst

/-- Whether a report file parsed successfully. -/
def isOk : ParseResult → Bool
  | .ok _ => true
  | .fail => false

/-- The cache state a session settles into after its first caller. -/
def settledCache (loader : Nat → Except Unit Demangler) : DemangleCache :=
  match loader 0 with
  | .ok f => .loaded f
  | .error e => .pending (.error e)

/-! ## Concrete inputs used by witnesses and counterexamples -/

/-- The branch details of concrete scenario 1 of the spec. -/
def branchDetailsEx : List BranchDetail :=
  [⟨10, "0", 1⟩, ⟨10, "0", 2⟩, ⟨10, "1", 0⟩]

/-- A section in the spirit of concrete scenarios 1 and 5: one line at 10
with hit 3, the scenario-1 branch details, no functions. -/
def secEx : LcovSection :=
  ⟨"/ws/b/src/x.c", ⟨1, 1, [⟨10, 3⟩]⟩, ⟨2, 1, branchDetailsEx⟩, ⟨0, 0, []⟩⟩

/-- A section with one line at 5 and no branch details at all. -/
def secNoBranch : LcovSection :=
  ⟨"/a.c", ⟨1, 1, [⟨5, 2⟩]⟩, ⟨0, 0, []⟩, ⟨0, 0, []⟩⟩

/-! ## Fold characterization lemmas -/

theorem foldl_lineStep_eq (bbl : BranchMap) :
    ∀ (lds : List LineDetail) (init : List FileCoverageDetail),
      lds.foldl (lineStep bbl) init =
        init ++ lds.map (fun ln =>
          .statement
            ⟨ln.hit, ln.line - 1, ((mapGet bbl ln.line).getD []).map Prod.snd⟩)
  | [], init => by simp [lineStep]
  | ln :: lds, init => by
    simp [List.foldl_cons, foldl_lineStep_eq bbl lds, lineStep]

theorem foldl_fnStep_eq (dem : String → String) :
    ∀ (fns : List FunctionDetail) (d0 : List FileCoverageDetail)
      (l0 : List String),
      fns.foldl (fnStep dem) (d0, l0) =
        (d0 ++ (fns.filter fnKeep).map (fun fn => .declaration (fnDecl dem fn)),
         l0 ++ (fns.filter (fun fn => fnKeep fn && isMangled fn.name)).map
           (·.name))
  | [], d0, l0 => by simp [fnKeep]
  | fn :: fns, d0, l0 => by
    by_cases hemp : strLen fn.name == 0
    · simp [List.foldl_cons, fnStep, hemp, foldl_fnStep_eq dem fns, fnKeep]
    · by_cases hm : isMangled fn.name
      · simp [List.foldl_cons, fnStep, hemp, hm, foldl_fnStep_eq dem fns,
          fnKeep, fnDecl]
      · simp [List.foldl_cons, fnStep, hemp, hm, foldl_fnStep_eq dem fns,
          fnKeep, fnDecl]

/-- Closed form of the instrumented detail expansion: the line records in
section order, then the retained declaration records in section order, with
the demangler call log listing the retained mangled names in order. -/
theorem expandDetailsLog_eq (dem : String → String) (s : LcovSection) :
    expandDetailsLog dem s =
      (s.lines.details.map (fun ln =>
          .statement ⟨ln.hit, ln.line - 1,
            (branchGroup s.branches.details ln.line).map Prod.snd⟩)
        ++ (s.functions.details.filter fnKeep).map
            (fun fn => .declaration (fnDecl dem fn)),
       (s.functions.details.filter
          (fun fn => fnKeep fn && isMangled fn.name)).map (·.name)) := by
  unfold expandDetailsLog
  rw [foldl_fnStep_eq, foldl_lineStep_eq]
  simp [branchGroup]

/-! ## Branch-merge lemmas -/

theorem mapGet_mapSet (l k : Nat) (v : BranchRec) :
    ∀ m : BranchMap, mapGet (mapSet m k v) l =
      if k == l then some v else mapGet m l
  | [] => by
    by_cases h : k == l <;> simp [mapSet, mapGet, h]
  | (k', w) :: m => by
    by_cases hk : k' == k
    · have : k' = k := by simpa using hk
      subst this
      by_cases h : k' == l <;> simp [mapSet, mapGet, hk, h]
    · have hne : k' ≠ k := by simpa using hk
      by_cases h : k' == l
      · have : k' = l := by simpa using h
        subst this
        have : ¬(k == k') := by simpa using Ne.symm hne
        simp [mapSet, mapGet, hk, h, this]
      · simp [mapSet, mapGet, hk, h, mapGet_mapSet l k v m]

theorem branchGroup_foldl_aux (l : Nat) :
    ∀ (ds : List BranchDetail) (m : BranchMap),
      (mapGet (ds.foldl branchStep m) l).getD [] =
        (ds.filter (fun b => b.line == l)).foldl bump ((mapGet m l).getD [])
  | [], m => by simp
  | b :: ds, m => by
    rw [List.foldl_cons, branchGroup_foldl_aux l ds]
    by_cases h : b.line == l
    · have hbl : b.line = l := by simpa using h
      simp only [List.filter_cons, h, List.foldl_cons]
      have : mapGet (branchStep m b) l = some (bump ((mapGet m b.line).getD []) b) := by
        rw [branchStep, mapGet_mapSet]
        simp [h]
      rw [this]
      simp [hbl]
    · simp only [List.filter_cons, h]
      have : mapGet (branchStep m b) l = mapGet m l := by
        rw [branchStep, mapGet_mapSet]
        simp [h]
      rw [this]
      simp

/-- The branch group at line `l` is the `bump` fold over exactly the raw
branch details recorded for line `l`, in their original order. -/
theorem branchGroup_foldl (ds : List BranchDetail) (l : Nat) :
    branchGroup ds l = (ds.filter (fun b => b.line == l)).foldl bump [] := by
  rw [branchGroup, mergeBranches, branchGroup_foldl_aux]
  simp [mapGet]

theorem recGet_bump (b : BranchDetail) (id : String) :
    ∀ r : BranchRec, recGet (bump r b) id =
      if b.branch == id then
        match recGet r id with
        | some bc => some { bc with executed := bc.executed + b.hit }
        | none => some ⟨0 + b.hit, b.line - 1, b.branch⟩
      else recGet r id
  | [] => by
    by_cases h : b.branch == id <;> simp [bump, recGet, h]
  | (k, bc) :: r => by
    by_cases hk : k == b.branch
    · have hkb : k = b.branch := by simpa using hk
      subst hkb
      by_cases h : b.branch == id <;> simp [bump, recGet, h]
    · have hne : k ≠ b.branch := by simpa using hk
      by_cases h : k == id
      · have hki : k = id := by simpa using h
        subst hki
        have : ¬(b.branch == k) := by simpa using Ne.symm hne
        simp [bump, recGet, hk, h, this]
      · by_cases hbid : b.branch == id <;>
          simp [bump, recGet, hk, h, hbid, recGet_bump b id r]

theorem executed_foldl_bump (id : String) :
    ∀ (bs : List BranchDetail) (r : BranchRec),
      (recGet (bs.foldl bump r) id).map (·.executed) =
        match recGet r id with
        | some bc => some (bc.executed + hitsFor bs id)
        | none =>
          if bs.any (fun b => b.branch == id) then some (hitsFor bs id)
          else none
  | [], r => by
    cases h : recGet r id <;> simp [hitsFor, h]
  | b :: bs, r => by
    rw [List.foldl_cons, executed_foldl_bump id bs (bump r b), recGet_bump]
    by_cases hbid : b.branch == id
    · simp only [hbid, if_pos]
      cases h : recGet r id with
      | some bc =>
        simp [h, hitsFor, hbid, Nat.add_assoc]
      | none =>
        simp [h, hitsFor, hbid, Nat.add_assoc]
    · simp only [hbid, if_neg, Bool.false_eq_true, not_false_iff]
      cases h : recGet r id with
      | some bc =>
        simp [h, hitsFor, hbid]
      | none =>
        simp [h, hitsFor, hbid]

theorem mem_recKeys_bump (b : BranchDetail) (id : String) :
    ∀ r : BranchRec, id ∈ recKeys (bump r b) ↔ id ∈ recKeys r ∨ id = b.branch
  | [] => by simp [bump, recKeys, eq_comm]
  | (k, bc) :: r => by
    by_cases hk : k == b.branch
    · have hkb : k = b.branch := by simpa using hk
      subst hkb
      simp [bump, recKeys]
      tauto
    · have hb : bump ((k, bc) :: r) b = (k, bc) :: bump r b := by
        simp [bump, hk]
      rw [hb]
      have IH := mem_recKeys_bump b id r
      simp only [recKeys, List.map_cons, List.mem_cons] at IH ⊢
      rw [IH]
      tauto

theorem nodup_recKeys_bump (b : BranchDetail) :
    ∀ r : BranchRec, (recKeys r).Nodup → (recKeys (bump r b)).Nodup
  | [], _ => by simp [bump, recKeys]
  | (k, bc) :: r, h => by
    by_cases hk : k == b.branch
    · have hkb : k = b.branch := by simpa using hk
      subst hkb
      simpa [bump, recKeys] using h
    · have hne : k ≠ b.branch := by simpa using hk
      simp only [recKeys, List.map_cons, List.nodup_cons] at h
      have hmem : k ∉ recKeys (bump r b) := by
        rw [mem_recKeys_bump]
        rintro (hin | heq)
        · exact h.1 (by simpa [recKeys] using hin)
        · exact hne heq
      have := nodup_recKeys_bump b r h.2
      simp only [bump, hk, if_neg, Bool.false_eq_true, not_false_iff]
      simpa [recKeys, List.nodup_cons] using ⟨by simpa [recKeys] using hmem, this⟩

theorem mem_recKeys_foldl_bump (id : String) :
    ∀ (bs : List BranchDetail) (r : BranchRec),
      id ∈ recKeys (bs.foldl bump r) ↔
        id ∈ recKeys r ∨ id ∈ bs.map (·.branch)
  | [], r => by simp
  | b :: bs, r => by
    rw [List.foldl_cons, mem_recKeys_foldl_bump id bs, mem_recKeys_bump]
    simp [eq_comm]
    tauto

theorem nodup_recKeys_foldl_bump :
    ∀ (bs : List BranchDetail) (r : BranchRec),
      (recKeys r).Nodup → (recKeys (bs.foldl bump r)).Nodup
  | [], _, h => h
  | b :: bs, r, h =>
    List.foldl_cons .. ▸
      nodup_recKeys_foldl_bump bs (bump r b) (nodup_recKeys_bump b r h)

theorem mem_iff_recGet (id : String) (bc : BranchCoverage) :
    ∀ r : BranchRec, (recKeys r).Nodup →
      ((id, bc) ∈ r ↔ recGet r id = some bc)
  | [], _ => by simp [recGet]
  | (k, v) :: r, h => by
    simp only [recKeys, List.map_cons, List.nodup_cons] at h
    by_cases hk : k == id
    · have hki : k = id := by simpa using hk
      subst hki
      simp only [recGet, hk, if_pos, List.mem_cons, Option.some_inj]
      constructor
      · rintro (heq | hin)
        · injection heq with h1 h2
          exact h2.symm
        · exact (h.1 (by simpa using List.mem_map_of_mem Prod.fst hin)).elim
      · rintro rfl
        exact Or.inl rfl
    · have hne : k ≠ id := by simpa using hk
      simp only [recGet, hk, if_neg, Bool.false_eq_true, not_false_iff,
        List.mem_cons]
      rw [← mem_iff_recGet id bc r h.2]
      constructor
      · rintro (heq | hin)
        · exact absurd (congrArg Prod.fst heq).symm hne
        · exact hin
      · exact Or.inr

/-! ## Session, resolver and batch lemmas -/

theorem runSession_closed (loader : Nat → Except Unit Demangler) :
    ∀ k : Nat, runSession loader (k + 1) =
      ((settledCache loader, 1), List.replicate (k + 1) (loader 0))
  | 0 => by
    cases h : loader 0 <;>
      simp [runSession, fetchDemangle, h, settledCache]
  | k + 1 => by
    rw [show k + 1 + 1 = (k + 1) + 1 from rfl, runSession,
      runSession_closed loader k]
    cases h : loader 0 <;>
      simp [fetchDemangle, h, settledCache, List.replicate_succ,
        ← List.replicate_succ']

theorem resolveLoop_eq_find (p : String) :
    ∀ roots : List String,
      resolveLoop p roots =
        (roots.find? (fun q => strStartsWith p q)).map
          (fun r => (r, strDrop p (strLen r + 1)))
  | [] => rfl
  | r :: roots => by
    by_cases h : strStartsWith p r <;>
      simp [resolveLoop, List.find?, h, resolveLoop_eq_find p roots]

theorem all_map_comp {α β : Type} (f : α → β) (p : β → Bool) :
    ∀ l : List α, (l.map f).all p = l.all (fun a => p (f a))
  | [] => rfl
  | a :: l => by
    simp [all_map_comp f p l]

theorem foldl_append_eq_join {α β : Type} (f : α → List β) :
    ∀ (l : List α) (init : List β),
      l.foldl (fun acc x => acc ++ f x) init = init ++ (l.map f).flatten
  | [], init => by simp
  | x :: l, init => by
    simp [List.foldl_cons, foldl_append_eq_join f l]

/-! ## Record-kind projections of mapped lists -/

theorem filterMap_stmtOf_statements {α : Type} (g : α → StatementCoverage) :
    ∀ l : List α,
      (l.map (fun a => FileCoverageDetail.statement (g a))).filterMap stmtOf
        = l.map g
  | [] => rfl
  | a :: l => by
    simp [stmtOf, filterMap_stmtOf_statements g l]

theorem filterMap_stmtOf_declarations {α : Type} (g : α → DeclarationCoverage) :
    ∀ l : List α,
      (l.map (fun a => FileCoverageDetail.declaration (g a))).filterMap stmtOf
        = []
  | [] => rfl
  | a :: l => by
    simp [stmtOf, filterMap_stmtOf_declarations g l]

theorem filterMap_declOf_statements {α : Type} (g : α → StatementCoverage) :
    ∀ l : List α,
      (l.map (fun a => FileCoverageDetail.statement (g a))).filterMap declOf
        = []
  | [] => rfl
  | a :: l => by
    simp [declOf, filterMap_declOf_statements g l]

theorem filterMap_declOf_declarations {α : Type} (g : α → DeclarationCoverage) :
    ∀ l : List α,
      (l.map (fun a => FileCoverageDetail.declaration (g a))).filterMap declOf
        = l.map g
  | [] => rfl
  | a :: l => by
    simp [declOf, filterMap_declOf_declarations g l]

/-! ## Claims -/

/-- C8: for every section, `collectRunData`'s summary construction always
succeeds and yields exactly the section's own three instrumented/hit pairs —
statement from `lines`, branch from `branches`, declaration from
`functions` — as a pure projection: replacing all detail records changes
nothing. -/
theorem c8_summarize_projection (roots : List String) (s : LcovSection)
    (lds : List LineDetail) (bds : List BranchDetail)
    (fds : List FunctionDetail) :
    (mkFileCoverage roots s).statement = ⟨s.lines.hit, s.lines.instrumented⟩
    ∧ (mkFileCoverage roots s).branch = ⟨s.branches.hit, s.branches.instrumented⟩
    ∧ (mkFileCoverage roots s).declaration
        = ⟨s.functions.hit, s.functions.instrumented⟩
    ∧ mkFileCoverage roots (withDetails s lds bds fds) = mkFileCoverage roots s :=
  ⟨rfl, rfl, rfl, rfl⟩

/-- C7: detail expansion emits exactly one Line record per entry of
`lines.details`, in section order, at the 0-based position `line - 1`, with
the entry's hit count, attaching that line's merged Branch Group; a line with
no branch details gets the empty list. -/
theorem c7_line_records (dem : String → String) (s : LcovSection) :
    (expandDetails dem s).filterMap stmtOf =
      s.lines.details.map (fun ln =>
        ⟨ln.hit, ln.line - 1,
          (branchGroup s.branches.details ln.line).map Prod.snd⟩)
    ∧ ∀ l : Nat, s.branches.details.all (fun b => !(b.line == l)) = true →
        branchGroup s.branches.details l = [] := by
  constructor
  · rw [expandDetails, expandDetailsLog_eq]
    rw [List.filterMap_append, filterMap_stmtOf_statements,
      filterMap_stmtOf_declarations, List.append_nil]
  · intro l h
    rw [branchGroup_foldl]
    have hnil : s.branches.details.filter (fun b => b.line == l) = [] := by
      rw [List.filter_eq_nil_iff]
      intro b hb
      simpa using List.all_eq_true.mp h b hb
    rw [hnil]
    rfl

/-- C7 witness: a concrete section whose single line (line 5) has no branch
details receives the empty Branch Group. -/
theorem c7_witness :
    secNoBranch.branches.details.all (fun b => !(b.line == 5)) = true
    ∧ branchGroup secNoBranch.branches.details 5 = [] :=
  ⟨by decide, (c7_line_records (fun n => n) secNoBranch).2 5 (by decide)⟩

/-- C6: detail expansion emits one Declaration record per entry of
`functions.details` with a non-empty name, at position `line - 1`, with the
entry's hit count; empty-named entries are omitted and the retained order
matches the input order. -/
theorem c6_declaration_records (dem : String → String) (s : LcovSection) :
    (expandDetails dem s).filterMap declOf =
      (s.functions.details.filter fnKeep).map (fnDecl dem) := by
  rw [expandDetails, expandDetailsLog_eq]
  rw [List.filterMap_append, filterMap_declOf_statements,
    filterMap_declOf_declarations, List.nil_append]

/-- C5: a function name is passed through the demangler exactly once before
appearing in output precisely when it matches the mangled pattern (one to
three leading underscores then `Z`): the call log lists exactly the retained
matching names, once per record, and every output name is the demangled form
for matching names and the verbatim name otherwise. -/
theorem c5_demangler_usage (dem : String → String) (s : LcovSection) :
    demangleLog dem s =
      (s.functions.details.filter
        (fun fn => fnKeep fn && isMangled fn.name)).map (·.name)
    ∧ ((expandDetails dem s).filterMap declOf).map (·.name) =
      (s.functions.details.filter fnKeep).map
        (fun fn => if isMangled fn.name then dem fn.name else fn.name) := by
  constructor
  · rw [demangleLog, expandDetailsLog_eq]
  · rw [expandDetails, expandDetailsLog_eq]
    rw [List.filterMap_append, filterMap_declOf_statements,
      filterMap_declOf_declarations, List.nil_append, List.map_map]
    rfl

/-- C9: within one run session the demangler load executes at most once no
matter how many callers trigger demangling (the check-and-start region runs
without suspension, so concurrent callers sequentialize into some order of
these atomic steps), and every caller observes the one outcome of the first
load. -/
theorem c9_single_load (loader : Nat → Except Unit Demangler) (k : Nat) :
    sessionLoads loader k ≤ 1
    ∧ sessionResults loader k = List.replicate k (loader 0) := by
  cases k with
  | zero => exact ⟨Nat.zero_le 1, rfl⟩
  | succ k =>
    rw [sessionLoads, sessionResults, runSession_closed]
    exact ⟨Nat.le_refl 1, rfl⟩

/-- C4 counterexample: with a loader whose first execution fails and whose
second would succeed, a two-caller session still performs only one load and
the second caller observes the cached failure — the claimed retry (a second
load execution) does not happen. -/
theorem c4_counterexample :
    sessionLoads retryLoader 2 = 1
    ∧ sessionResults retryLoader 2 = [.error (), .error ()] :=
  ⟨rfl, rfl⟩

/-- C4 as amended: a demangler load failure surfaces to the caller that
triggered it and to every later caller, but the rejected promise stays
cached: no subsequent call re-executes the load, so the session fails
permanently (it never silently returns wrong names). -/
theorem c4_failure_latched (loader : Nat → Except Unit Demangler)
    (h : loader 0 = .error ()) (k : Nat) :
    sessionLoads loader (k + 1) = 1
    ∧ sessionResults loader (k + 1) = List.replicate (k + 1) (.error ()) := by
  rw [sessionLoads, sessionResults, runSession_closed, h]
  exact ⟨rfl, rfl⟩

/-- C4 witness: the amended statement at the concrete failing-then-succeeding
loader, three callers. -/
theorem c4_witness :
    retryLoader 0 = .error ()
    ∧ sessionLoads retryLoader 3 = 1
    ∧ sessionResults retryLoader 3 = List.replicate 3 (.error ()) :=
  ⟨rfl, (c4_failure_latched retryLoader rfl 2).1,
    (c4_failure_latched retryLoader rfl 2).2⟩

/-- C2 counterexample: a batch of two report files, one parsing to one
section and one failing to parse. The successful file's summary is still
published, but the batch promise rejects and `run.end()` is never reached:
the parse failure does terminate the batch, contrary to the claim. -/
theorem c2_counterexample :
    (collectRunData ["/ws/a", "/ws/b"] [.ok [secEx], .fail]).1
        = [mkFileCoverage ["/ws/a", "/ws/b"] secEx]
    ∧ (collectRunData ["/ws/a", "/ws/b"] [.ok [secEx], .fail]).2.1 = false
    ∧ (collectRunData ["/ws/a", "/ws/b"] [.ok [secEx], .fail]).2.2 = true :=
  ⟨by decide, rfl, rfl⟩

/-- C2 as amended: every successfully parsed file's summaries are published
(each concurrent task runs to completion), and the failing file contributes
none; but with no per-file catch a single parse failure rejects the awaited
join, so the run is ended if and only if every file parsed — the failure
propagates out of the batch instead of being reported per file. -/
theorem c2_batch_behaviour (roots : List String) (files : List ParseResult) :
    (collectRunData roots files).1 =
      (files.map (fun f =>
        match f with
        | .ok ss => ss.map (mkFileCoverage roots)
        | .fail => [])).flatten
    ∧ (collectRunData roots files).2.1 = files.all isOk
    ∧ (collectRunData roots files).2.2 = !files.all isOk := by
  have hcomp : (fun f => (runTask roots f).2) = isOk := by
    funext f
    cases f <;> rfl
  refine ⟨?_, ?_, ?_⟩
  · simp only [collectRunData, promiseAll]
    rw [foldl_append_eq_join, List.nil_append, List.map_map]
    have : (Prod.fst ∘ runTask roots) = fun f =>
        match f with
        | ParseResult.ok ss => ss.map (mkFileCoverage roots)
        | ParseResult.fail => [] := by
      funext f
      cases f <;> rfl
    rw [this]
  · simp only [collectRunData, promiseAll]
    rw [all_map_comp, hcomp]
  · simp only [collectRunData, promiseAll]
    rw [all_map_comp, hcomp]

/-- C3 counterexample: with the single root `/ws/a` and section path
`/ws/ab/x.c`, the code's plain `startsWith` accepts the root even though the
prefix is not followed by a separator, resolving under `/ws/a`; the claimed
segment-boundary rule would leave the raw path. -/
theorem c3_counterexample :
    resolvePath ["/ws/a"] "/ws/ab/x.c" = .joined "/ws/a" "/x.c"
    ∧ resolvePathSpec ["/ws/a"] "/ws/ab/x.c" = .raw "/ws/ab/x.c" :=
  ⟨by decide, by decide⟩

/-- C3 as amended: the resolved identity is determined by the first root in
order whose path is a plain string prefix of the section path (no
segment-boundary check), joined with the section path after dropping the
root's length plus one characters; if no root is a plain prefix, the
identity is the raw section path. -/
theorem c3_plain_string_resolution (roots : List String) (p : String) :
    (∀ r : String, roots.find? (fun q => strStartsWith p q) = some r →
        resolvePath roots p = .joined r (strDrop p (strLen r + 1)))
    ∧ (roots.find? (fun q => strStartsWith p q) = none →
        resolvePath roots p = .raw p) := by
  constructor
  · intro r h
    rw [resolvePath, resolveLoop_eq_find, h]
    rfl
  · intro h
    rw [resolvePath, resolveLoop_eq_find, h]
    rfl

/-- C3 witness: the amended statement at concrete scenario 5's inputs (roots
`/ws/a`, `/ws/b`; path `/ws/b/src/x.c`), where the plain-prefix rule and the
spec's segment rule agree. -/
theorem c3_witness :
    List.find? (fun q => strStartsWith "/ws/b/src/x.c" q) ["/ws/a", "/ws/b"]
        = some "/ws/b"
    ∧ resolvePath ["/ws/a", "/ws/b"] "/ws/b/src/x.c"
        = .joined "/ws/b" "src/x.c" := by
  refine ⟨by decide, ?_⟩
  have h := (c3_plain_string_resolution ["/ws/a", "/ws/b"] "/ws/b/src/x.c").1
    "/ws/b" (by decide)
  rw [h]
  decide

/-- C1: for every branch detail sequence and line, the merged group holds
exactly one Branch record per distinct identifier observed on that line (its
keys are duplicate-free and are exactly the identifiers recorded for the
line), each record's executed count is the sum, accumulated from 0, of the
hit counts of all raw details with that (line, identifier) pair, and the
number of records equals the number of distinct identifiers on the line. -/
theorem c1_branch_aggregation (ds : List BranchDetail) (l : Nat) :
    (recKeys (branchGroup ds l)).Nodup
    ∧ (∀ id : String, id ∈ recKeys (branchGroup ds l) ↔
        id ∈ (ds.filter (fun b => b.line == l)).map (·.branch))
    ∧ (∀ (id : String) (bc : BranchCoverage), (id, bc) ∈ branchGroup ds l →
        bc.executed = hitsFor (ds.filter (fun b => b.line == l)) id)
    ∧ (branchGroup ds l).length =
        ((ds.filter (fun b => b.line == l)).map (·.branch)).toFinset.card := by
  have hg := branchGroup_foldl ds l
  have hnodup : (recKeys (branchGroup ds l)).Nodup := by
    rw [hg]
    exact nodup_recKeys_foldl_bump _ [] (by simp [recKeys])
  have hmem : ∀ id : String, id ∈ recKeys (branchGroup ds l) ↔
      id ∈ (ds.filter (fun b => b.line == l)).map (·.branch) := by
    intro id
    rw [hg, mem_recKeys_foldl_bump]
    simp [recKeys]
  refine ⟨hnodup, hmem, ?_, ?_⟩
  · intro id bc hmem'
    have hget : recGet (branchGroup ds l) id = some bc :=
      (mem_iff_recGet id bc _ hnodup).mp hmem'
    have hid : id ∈ (ds.filter (fun b => b.line == l)).map (·.branch) :=
      (hmem id).mp (by simpa [recKeys] using List.mem_map_of_mem Prod.fst hmem')
    have hany : (ds.filter (fun b => b.line == l)).any
        (fun b => b.branch == id) = true := by
      rw [List.any_eq_true]
      obtain ⟨b, hb, hbid⟩ := List.mem_map.mp hid
      exact ⟨b, hb, by simp [hbid]⟩
    have hexec := executed_foldl_bump id (ds.filter (fun b => b.line == l)) []
    rw [← hg, hget] at hexec
    simpa [recGet, hany] using hexec
  · have hlen : (branchGroup ds l).length = (recKeys (branchGroup ds l)).length := by
      simp [recKeys]
    rw [hlen, ← List.toFinset_card_of_nodup hnodup]
    congr 1
    ext id
    simp only [List.mem_toFinset]
    exact hmem id

/-- C1 witness: in concrete scenario 1 the record for identifier 0 on line
10 is a group member and its executed count is the summed hits of the two
raw details with that pair. -/
theorem c1_witness :
    ("0", (⟨3, 9, "0"⟩ : BranchCoverage)) ∈ branchGroup branchDetailsEx 10
    ∧ (⟨3, 9, "0"⟩ : BranchCoverage).executed
        = hitsFor (branchDetailsEx.filter (fun b => b.line == 10)) "0" :=
  ⟨by decide,
    (c1_branch_aggregation branchDetailsEx 10).2.2.1 "0" ⟨3, 9, "0"⟩ (by decide)⟩

/-- C10: a branch detail recorded for a line that never occurs in
`lines.details` contributes nothing to the expansion output: filtering such
details away changes nothing, and no standalone record is emitted for them. -/
theorem c10_orphan_branches_dropped (dem : String → String) (s : LcovSection) :
    expandDetails dem s =
      expandDetails dem
        { s with branches := { s.branches with
            details := s.branches.details.filter
              (fun b => s.lines.details.any (fun ln => ln.line == b.line)) } } := by
  rw [expandDetails, expandDetails, expandDetailsLog_eq, expandDetailsLog_eq]
  show _ ++ _ = _ ++ _
  congr 1
  apply List.map_congr_left
  intro ln hln
  have hgrp : branchGroup
      (s.branches.details.filter
        (fun b => s.lines.details.any (fun ln2 => ln2.line == b.line)))
      ln.line = branchGroup s.branches.details ln.line := by
    rw [branchGroup_foldl, branchGroup_foldl, List.filter_filter]
    congr 1
    apply List.filter_congr
    intro b hb
    by_cases hbl : b.line == ln.line
    · have hmatch : s.lines.details.any (fun ln2 => ln2.line == b.line) = true := by
        rw [List.any_eq_true]
        have : b.line = ln.line := by simpa using hbl
        exact ⟨ln, hln, by simp [this]⟩
      simp [hbl, hmatch]
    · simp [hbl]
  rw [hgrp]

end ImportLcov
